import Mathlib

/-!
Verification development for the myFM core: the factorization-machine
scoring engine (`FM<Real>::predict_score`, `FM<Real>::initialize_weight`)
and the one-sided truncated-normal rejection sampler
(`sample_truncated_normal_left` / `sample_truncated_normal_right`).

The C++ code is templated over a real scalar type.  The scoring engine
performs only ring/field operations, so we embed it over the exact
rationals `ℚ`, which keeps every definition computable.  The sampler uses
`sqrt`, `log` and `exp`, so it is embedded over `ℝ`.

Matrices are embedded in case-major (row-major) layout as a list of rows
together with a declared column count; a pseudo-random generator is an
infinite stream of already-transformed deviates together with a cursor
position (each call of `normal_distribution` / `uniform_real_distribution`
on the `mt19937` engine consumes one stream element and advances the
cursor).  The unbounded C++ rejection loops are embedded with an explicit
fuel argument: `none` means the loop has not accepted within `fuel`
iterations.
-/

namespace myFM

/-- Dot product of two scalar lists (`Eigen` row/vector product restricted
to the overlapping length). -/
def dot (a b : List ℚ) : ℚ := (List.zipWith (fun x y => x * y) a b).sum

/-- `x.cwiseAbs2()` entrywise operation on a real scalar: `|x|^2 = x * x`. -/
def sq (x : ℚ) : ℚ := x * x

/-- A feature matrix in case-major layout: `cols` is the declared column
count (`Eigen`'s `cols()`), `data` the list of rows. -/
structure Mat where
  cols : ℕ
  data : List (List ℚ)

/-- `Eigen`'s `rows()`. -/
def Mat.rows (X : Mat) : ℕ := X.data.length

/-- Well-formedness of a stored matrix: every row has exactly `cols`
entries. -/
abbrev Mat.wf (X : Mat) : Prop := ∀ row ∈ X.data, row.length = X.cols

/-- Horizontal concatenation of two case-major matrices (pairing the
`i`-th row of `X` with the `i`-th row of `Y`). -/
def Mat.hcat (X Y : Mat) : Mat :=
  ⟨X.cols + Y.cols, List.zipWith (fun a b => a ++ b) X.data Y.data⟩

/-- Modelled from the spec: `relational::RelationBlock` is declared in
`definitions.hpp`, which is not among the sources; per the spec it carries
the deduplicated `B × F` feature rows (`blockMatrix`, field `X` in the
engine code), the case-to-block-row mapping `caseToBlockRow` (field
`original_to_block`, length `N`), and this block's feature width `F`
(field `feature_size`). -/
structure RelationBlock where
  X : Mat
  original_to_block : List ℕ
  feature_size : ℕ

/-- The two error kinds thrown by `predict_score`:
`std::invalid_argument` with its message, and the `std::runtime_error`
"get_score called before initialization". -/
inductive FMError where
  | invalidArgument (msg : String)
  | notInitialized
deriving DecidableEq

/-- Model state of `FM<Real>`: factor count, bias `w0`, linear weights
`w`, factor matrix `V` stored row-major (`P` rows of length `n_factors`),
and the `initialized` flag. -/
structure FM where
  n_factors : ℕ
  w0 : ℚ
  w : List ℚ
  V : List (List ℚ)
  initialized : Bool

/-- Column `f` of the factor matrix, `V.col(f)`: entry `j` is `V[j][f]`. -/
def Vcol (fm : FM) (f : ℕ) : List ℚ := fm.V.map (fun vr => vr.getD f 0)

/-- A caller-owned pseudo-random generator: an infinite stream of
already-transformed deviates and a cursor. -/
structure RNG (α : Type) where
  stream : ℕ → α
  pos : ℕ

/-- `FM::initialize_weight(n_features, init_std, gen)`: refills `V`
(`n_features × n_factors`, written in `Eigen` column-major assignment
order, so entry `(i, j)` consumes stream position `pos + j * n_features +
i`), then `w` (`n_features` further deviates), then the bias `w0` (one
further deviate); every written scalar is `nd(gen) * init_std`, and the
model is marked initialized.  Returns the new model together with the
advanced generator. -/
def initialize_weight (fm : FM) (n_features : ℕ) (init_std : ℚ)
    (g : RNG ℚ) : FM × RNG ℚ :=
  let k := fm.n_factors
  ⟨{ n_factors := k
     w0 := g.stream (g.pos + n_features * k + n_features) * init_std
     w := (List.range n_features).map
       (fun i => g.stream (g.pos + n_features * k + i) * init_std)
     V := (List.range n_features).map
       (fun i => (List.range k).map
         (fun j => g.stream (g.pos + j * n_features + i) * init_std))
     initialized := true }
   , ⟨g.stream, g.pos + n_features * k + n_features + 1⟩⟩

/-- The input-consistency loop at the top of `predict_score`: walks the
relation blocks in order, throws `std::invalid_argument` at the first
block whose mapping length differs from `case_size`, and otherwise
accumulates the blocks' feature widths. -/
def checkRels (case_size : ℕ) : List RelationBlock → Except FMError ℕ
  | [] => Except.ok 0
  | rel :: rest =>
    if case_size ≠ rel.original_to_block.length then
      Except.error (FMError.invalidArgument
        "Relation blocks have inconsistent mapper size with case_size")
    else
      Except.map (fun s => rel.feature_size + s) (checkRels case_size rest)

/-- Per-unique-row scores of one relation block:
`(block.X entrywise tf) * (segment of weights at offset)`.  `tf = id` for
the linear and `q` passes, `tf = sq` for the `cwiseAbs2` correction
pass. -/
def blockScores (tf : ℚ → ℚ) (weights : List ℚ) (offset : ℕ)
    (rel : RelationBlock) : List ℚ :=
  rel.X.data.map (fun row => dot (row.map tf)
    ((weights.drop offset).take rel.feature_size))

/-- The gather-add loop `for (auto i : original_to_block) target(j++) +=
cache(i);`. -/
def scatterAdd (cache : List ℚ) (mapping : List ℕ) (target : List ℚ) :
    List ℚ :=
  List.zipWith (fun r i => r + cache.getD i 0) target mapping

/-- The per-block accumulation loop shared by the linear pass and by the
two per-factor passes of `predict_score`: for each block, compute its
per-unique-row cache from the weight segment at the running `offset`,
gather-add it through `original_to_block`, and advance the offset by the
block's feature width. -/
def relLoop (tf : ℚ → ℚ) (weights : List ℚ) :
    ℕ → List RelationBlock → List ℚ → List ℚ
  | _, [], target => target
  | offset, rel :: rest, target =>
    relLoop tf weights (offset + rel.feature_size) rest
      (scatterAdd (blockScores tf weights offset rel)
        rel.original_to_block target)

/-- The body of the loop over latent factors in `predict_score`: build
`q_cache` (base product plus the blocks' gathered contributions), add
`0.5 * q_cache^2` to the result, then build the `cwiseAbs2` correction
and subtract `0.5` times it. -/
def factorStep (fm : FM) (X : Mat) (rels : List RelationBlock)
    (result : List ℚ) (f : ℕ) : List ℚ :=
  List.zipWith (fun r cv => r - cv * (1 / 2 : ℚ))
    (List.zipWith (fun r qv => r + sq qv * (1 / 2 : ℚ)) result
      (relLoop id (Vcol fm f) X.cols rels
        (X.data.map (fun row => dot row ((Vcol fm f).take X.cols)))))
    (relLoop sq ((Vcol fm f).map sq) X.cols rels
      (X.data.map (fun row => dot (row.map sq)
        (((Vcol fm f).map sq).take X.cols))))

/-- The initial linear term `result = w0 + X * w.head(X.cols())`. -/
def linInit (fm : FM) (X : Mat) : List ℚ :=
  X.data.map (fun row => fm.w0 + dot row (fm.w.take X.cols))

/-- `FM<Real>::predict_score(X, relations)` (the relation-block engine of
`FM.hpp`).  Checks run in source order: per-block mapping lengths, total
feature width, then the `initialized` flag; on success the score vector
is the linear pass followed by the loop over latent factors.  The
embedding returns `Except`, so an error excludes any score output, and
the model is never modified (the C++ method is `const`). -/
def predict_score (fm : FM) (X : Mat) (rels : List RelationBlock) :
    Except FMError (List ℚ) :=
  match checkRels X.rows rels with
  | Except.error e => Except.error e
  | Except.ok fs =>
    if X.cols + fs ≠ fm.w.length then
      Except.error (FMError.invalidArgument "Total feature size mismatch.")
    else if fm.initialized = false then
      Except.error FMError.notInitialized
    else
      Except.ok ((List.range fm.n_factors).foldl (factorStep fm X rels)
        (relLoop id fm.w X.cols rels (linInit fm X)))

/-- The block-free scoring engine of the second `FM.hpp` variant among the
sources: `result = w0 + X*w`, plus `0.5` times the rowwise sum of squares
of `X*V`, minus `X.cwiseAbs2() * (0.5 * V.array().square().rowwise().sum())`. -/
def predict_score_noblock (fm : FM) (X : Mat) : Except FMError (List ℚ) :=
  if fm.initialized = false then
    Except.error FMError.notInitialized
  else
    Except.ok (X.data.map (fun row =>
      fm.w0 + dot row fm.w
        + ((List.range fm.n_factors).map
            (fun f => sq (dot row (Vcol fm f)))).sum * (1 / 2 : ℚ)
        - dot (row.map sq)
            (fm.V.map (fun vr => (1 / 2 : ℚ) * (vr.map sq).sum))))

/-- Specification-side closed form of the relation contribution for case
`i`: block `k` of the list contributes its score at unique row
`original_to_block[i]`, computed against the weight segment starting at
`offset + Σ of the previous blocks' feature widths`. -/
def relContrib (tf : ℚ → ℚ) (weights : List ℚ) :
    ℕ → List RelationBlock → ℕ → ℚ
  | _, [], _ => 0
  | offset, rel :: rest, i =>
    (blockScores tf weights offset rel).getD
        (rel.original_to_block.getD i 0) 0
      + relContrib tf weights (offset + rel.feature_size) rest i

/-- Specification-side value of `q_cache(i)` for factor `f`: base part on
columns `[0, X.cols)` of `V.col(f)` plus the positional block
contributions. -/
def qVal (fm : FM) (X : Mat) (rels : List RelationBlock) (f i : ℕ) : ℚ :=
  dot (X.data.getD i []) ((Vcol fm f).take X.cols)
    + relContrib id (Vcol fm f) X.cols rels i

/-- Specification-side value of the `cwiseAbs2` correction for factor `f`
and case `i`, over the same positional partition as `qVal`. -/
def cVal (fm : FM) (X : Mat) (rels : List RelationBlock) (f i : ℕ) : ℚ :=
  dot ((X.data.getD i []).map sq) (((Vcol fm f).map sq).take X.cols)
    + relContrib sq ((Vcol fm f).map sq) X.cols rels i

/-- Specification-side closed form of the whole score vector: case `i`
receives the bias, the base linear term on `w.take X.cols`, the blocks'
linear contributions on consecutive `w` segments, and per latent factor
`0.5 * qVal^2 - 0.5 * cVal`. -/
def scoreSpec (fm : FM) (X : Mat) (rels : List RelationBlock) : List ℚ :=
  (List.range X.rows).map (fun i =>
    fm.w0 + dot (X.data.getD i []) (fm.w.take X.cols)
      + relContrib id fm.w X.cols rels i
      + ((List.range fm.n_factors).map
          (fun f => sq (qVal fm X rels f i) * (1 / 2 : ℚ)
            - cVal fm X rels f i * (1 / 2 : ℚ))).sum)

/-- The envelope rate of the exponential accept/reject branch:
`alpha_star = (mu_minus + sqrt(mu_minus^2 + 4)) / 2`. -/
noncomputable def alpha_star (mu : ℝ) : ℝ :=
  (mu + Real.sqrt (mu * mu + 4)) / 2

/-- The plain-rejection branch of `sample_truncated_normal_left` (taken
when `mu_minus < 0`), which is also exactly the spec's description of
plain rejection: repeatedly draw standard-normal deviates and return the
first one strictly exceeding the threshold.  `fuel` bounds the number of
iterations of the unbounded C++ `while (true)` loop; `none` means no
acceptance within `fuel` draws. -/
noncomputable def rejectLoop : ℕ → RNG ℝ → ℝ → Option (ℝ × RNG ℝ)
  | 0, _, _ => none
  | fuel + 1, g, mu =>
    let z := g.stream g.pos
    if mu < z then some (z, ⟨g.stream, g.pos + 1⟩)
    else rejectLoop fuel ⟨g.stream, g.pos + 1⟩ mu

/-- The exponential-envelope branch (taken when `mu_minus >= 0`): draw
`z = -log(U)/alpha_star + mu_minus`, accept with probability
`exp(-(z - alpha_star)^2 / 2)` against a second uniform draw. -/
noncomputable def expLoop : ℕ → RNG ℝ → ℝ → ℝ → Option (ℝ × RNG ℝ)
  | 0, _, _, _ => none
  | fuel + 1, g, mu, a =>
    let z := -Real.log (g.stream g.pos) / a + mu
    let rho := Real.exp (-(z - a) * (z - a) / 2)
    let u := g.stream (g.pos + 1)
    if u < rho then some (z, ⟨g.stream, g.pos + 2⟩)
    else expLoop fuel ⟨g.stream, g.pos + 2⟩ mu a

/-- `sample_truncated_normal_left(gen, mu_minus)` of `util.hpp`: plain
rejection when `mu_minus < 0`, exponential envelope otherwise. -/
noncomputable def sample_truncated_normal_left (fuel : ℕ) (g : RNG ℝ)
    (mu_minus : ℝ) : Option (ℝ × RNG ℝ) :=
  if mu_minus < 0 then rejectLoop fuel g mu_minus
  else expLoop fuel g mu_minus (alpha_star mu_minus)

/-- `sample_truncated_normal_right(gen, mu_plus)`: the negation of the
left sampler at the negated threshold, run on the same generator. -/
noncomputable def sample_truncated_normal_right (fuel : ℕ) (g : RNG ℝ)
    (mu_plus : ℝ) : Option (ℝ × RNG ℝ) :=
  Option.map (fun p => (-p.1, p.2))
    (sample_truncated_normal_left fuel g (-mu_plus))

/-! Concrete instances used by the witness theorems. -/

/-- A small initialized model: one factor, `w0 = 0`, `w = [1]`,
`V = [[1]]`. -/
def exFM : FM := ⟨1, 0, [1], [[1]], true⟩

/-- The same model with the `initialized` flag cleared. -/
def exFM0 : FM := ⟨1, 0, [1], [[1]], false⟩

/-- A two-feature initialized model: one factor, `w = [1, 2]`,
`V = [[1], [2]]`. -/
def exFM2 : FM := ⟨1, 0, [1, 2], [[1], [2]], true⟩

/-- A one-case, one-column base matrix. -/
def exX : Mat := ⟨1, [[2]]⟩

/-- An identity-mapped relation block with one unique row `[3]`. -/
def exB : RelationBlock := ⟨⟨1, [[3]]⟩, [0], 1⟩

/-- A one-case base matrix with two columns, wider than `exFM0`'s weight
vector. -/
def exXw : Mat := ⟨2, [[1, 1]]⟩

/-- A rational deviate stream for initialization witnesses. -/
def exG : RNG ℚ := ⟨fun n => (n : ℚ), 0⟩

/-- A real deviate stream constant at `1/2`, for sampler witnesses. -/
noncomputable def exGR : RNG ℝ := ⟨fun _ => 1 / 2, 0⟩

/-- The stream exhibiting the boundary counterexample at threshold `0`:
first draw `exp(-1)`, later draws `1/2`. -/
noncomputable def cexGen : RNG ℝ :=
  ⟨fun n => if n = 0 then Real.exp (-1) else 1 / 2, 0⟩

/-! Basic list lemmas. -/

theorem zipWith_take_of_le {α β γ : Type} (f : α → β → γ) :
    ∀ (r : List α) (l : List β) (n : ℕ), r.length ≤ n →
      List.zipWith f r (l.take n) = List.zipWith f r l := by
  intro r
  induction r with
  | nil => intro l n _; simp
  | cons x xs ih =>
    intro l n h
    cases l with
    | nil => simp
    | cons y ys =>
      cases n with
      | zero => simp at h
      | succ m =>
        simp only [List.take_succ_cons, List.zipWith_cons_cons]
        rw [ih ys m (by simpa using h)]

theorem dot_take (r l : List ℚ) (n : ℕ) (h : r.length ≤ n) :
    dot r (l.take n) = dot r l := by
  unfold dot
  rw [zipWith_take_of_le _ r l n h]

theorem zipWith_append_split {α β γ : Type} (f : α → β → γ) :
    ∀ (a b : List α) (v : List β),
      List.zipWith f (a ++ b) v =
        List.zipWith f a (v.take a.length) ++
          List.zipWith f b (v.drop a.length) := by
  intro a
  induction a with
  | nil => intro b v; simp
  | cons x xs ih =>
    intro b v
    cases v with
    | nil => simp
    | cons y ys =>
      simp only [List.cons_append, List.zipWith_cons_cons, List.length_cons,
        List.take_succ_cons, List.drop_succ_cons]
      rw [ih b ys]

theorem dot_append (a b v : List ℚ) :
    dot (a ++ b) v = dot a (v.take a.length) + dot b (v.drop a.length) := by
  unfold dot
  rw [zipWith_append_split, List.sum_append]

theorem sum_map_add_distrib {α : Type} (l : List α) (f g : α → ℚ) :
    (l.map (fun x => f x + g x)).sum = (l.map f).sum + (l.map g).sum := by
  induction l with
  | nil => simp
  | cons x xs ih => simp [ih]; ring

theorem sum_map_sub_distrib {α : Type} (l : List α) (f g : α → ℚ) :
    (l.map (fun x => f x - g x)).sum = (l.map f).sum - (l.map g).sum := by
  induction l with
  | nil => simp
  | cons x xs ih => simp [ih]; ring

theorem getD_map_zero (g : ℚ → ℚ) (hg : g 0 = 0) :
    ∀ (l : List ℚ) (i : ℕ), (l.map g).getD i 0 = g (l.getD i 0) := by
  intro l
  induction l with
  | nil => intro i; simpa using hg.symm
  | cons x xs ih =>
    intro i
    cases i with
    | zero => rfl
    | succ j => simpa using ih j

theorem getD_map_lt {α β : Type} (g : α → β) (l : List α) (i : ℕ)
    (h : i < l.length) (d : β) (d' : α) :
    (l.map g).getD i d = g (l.getD i d') := by
  rw [List.getD_eq_getElem (l.map g) d (by simpa using h),
    List.getD_eq_getElem l d' h, List.getElem_map]

theorem range_sum_getD (v : List ℚ) :
    ((List.range v.length).map (fun f => v.getD f 0)).sum = v.sum := by
  induction v with
  | nil => simp
  | cons x xs ih =>
    rw [List.length_cons, List.range_succ_eq_map, List.map_cons,
      List.map_map]
    have hc : ((fun f => (x :: xs).getD f 0) ∘ Nat.succ) =
        fun f => xs.getD f 0 := by
      funext f
      simp [List.getD_cons_succ]
    rw [hc, List.sum_cons, ih]
    rfl

theorem dot_col_sum (xs : List ℚ) (V : List (List ℚ)) (n : ℕ)
    (h : ∀ vr ∈ V, vr.length = n) :
    ((List.range n).map
        (fun f => dot xs (V.map (fun vr => vr.getD f 0)))).sum =
      dot xs (V.map List.sum) := by
  induction xs generalizing V with
  | nil => simp [dot]
  | cons x xs ih =>
    cases V with
    | nil => simp [dot]
    | cons v V' =>
      have hv : v.length = n := h v (by simp)
      have hV' : ∀ vr ∈ V', vr.length = n := fun vr hvr => h vr (by simp [hvr])
      have hstep : ∀ f : ℕ,
          dot (x :: xs) ((v :: V').map (fun vr => vr.getD f 0)) =
            x * v.getD f 0 + dot xs (V'.map (fun vr => vr.getD f 0)) := by
        intro f; simp [dot]
      simp only [hstep]
      rw [sum_map_add_distrib]
      have h1 : ((List.range n).map (fun f => x * v.getD f 0)).sum =
          x * v.sum := by
        rw [← hv, ← range_sum_getD v, ← List.sum_map_mul_left]
      rw [h1, ih V' hV']
      simp [dot]

theorem dot_const_mul (c : ℚ) (a l : List ℚ) :
    dot a (l.map (fun x => c * x)) = c * dot a l := by
  induction a generalizing l with
  | nil => simp [dot]
  | cons x xs ih =>
    cases l with
    | nil => simp [dot]
    | cons y ys =>
      simp only [List.map_cons, dot, List.zipWith_cons_cons, List.sum_cons]
      have := ih ys
      unfold dot at this
      rw [this]
      ring

/-! Characterization of the scoring passes. -/

theorem zipWith_getD {α β γ : Type} (f : α → β → γ) (a : List α)
    (b : List β) (i : ℕ) (da : α) (db : β) (dg : γ)
    (h1 : i < a.length) (h2 : i < b.length) :
    (List.zipWith f a b).getD i dg = f (a.getD i da) (b.getD i db) := by
  have hlen : i < (List.zipWith f a b).length := by
    rw [List.length_zipWith]; omega
  rw [List.getD_eq_getElem _ dg hlen, List.getElem_zipWith,
    List.getD_eq_getElem a da h1, List.getD_eq_getElem b db h2]

theorem scatterAdd_length (cache : List ℚ) (mapping : List ℕ)
    (target : List ℚ) :
    (scatterAdd cache mapping target).length =
      min target.length mapping.length := by
  simp [scatterAdd]

theorem scatterAdd_getD (cache : List ℚ) (mapping : List ℕ)
    (target : List ℚ) (i : ℕ) (h1 : i < target.length)
    (h2 : i < mapping.length) :
    (scatterAdd cache mapping target).getD i 0 =
      target.getD i 0 + cache.getD (mapping.getD i 0) 0 := by
  unfold scatterAdd
  exact zipWith_getD _ target mapping i 0 0 0 h1 h2

theorem relLoop_length (tf : ℚ → ℚ) (w : List ℚ) (N : ℕ) :
    ∀ (rels : List RelationBlock) (offset : ℕ) (target : List ℚ),
      (∀ rel ∈ rels, rel.original_to_block.length = N) →
      target.length = N →
      (relLoop tf w offset rels target).length = N := by
  intro rels
  induction rels with
  | nil => intro offset target _ ht; simpa [relLoop]
  | cons rel rest ih =>
    intro offset target h ht
    simp only [relLoop]
    apply ih
    · intro r hr; exact h r (by simp [hr])
    · rw [scatterAdd_length, ht, h rel (by simp)]
      omega

theorem relLoop_getD (tf : ℚ → ℚ) (w : List ℚ) (N : ℕ) :
    ∀ (rels : List RelationBlock) (offset : ℕ) (target : List ℚ) (i : ℕ),
      (∀ rel ∈ rels, rel.original_to_block.length = N) →
      target.length = N → i < N →
      (relLoop tf w offset rels target).getD i 0 =
        target.getD i 0 + relContrib tf w offset rels i := by
  intro rels
  induction rels with
  | nil => intro offset target i _ _ _; simp [relLoop, relContrib]
  | cons rel rest ih =>
    intro offset target i h ht hi
    simp only [relLoop, relContrib]
    rw [ih (offset + rel.feature_size) _ i
      (fun r hr => h r (by simp [hr]))
      (by rw [scatterAdd_length, ht, h rel (by simp)]; omega) hi]
    rw [scatterAdd_getD _ _ _ i (by omega) (by rw [h rel (by simp)]; omega)]
    ring

theorem factorStep_length (fm : FM) (X : Mat) (rels : List RelationBlock)
    (result : List ℚ) (f : ℕ)
    (h : ∀ rel ∈ rels, rel.original_to_block.length = X.rows)
    (hr : result.length = X.rows) :
    (factorStep fm X rels result f).length = X.rows := by
  unfold factorStep
  rw [List.length_zipWith, List.length_zipWith]
  rw [relLoop_length _ _ X.rows rels X.cols _ h (by simp [Mat.rows]),
    relLoop_length _ _ X.rows rels X.cols _ h (by simp [Mat.rows]), hr]
  omega

theorem factorStep_getD (fm : FM) (X : Mat) (rels : List RelationBlock)
    (result : List ℚ) (f i : ℕ)
    (h : ∀ rel ∈ rels, rel.original_to_block.length = X.rows)
    (hr : result.length = X.rows) (hi : i < X.rows) :
    (factorStep fm X rels result f).getD i 0 =
      result.getD i 0 + sq (qVal fm X rels f i) * (1 / 2 : ℚ)
        - cVal fm X rels f i * (1 / 2 : ℚ) := by
  unfold factorStep
  have hqlen : (relLoop id (Vcol fm f) X.cols rels
      (X.data.map (fun row => dot row ((Vcol fm f).take X.cols)))).length =
      X.rows :=
    relLoop_length _ _ X.rows rels X.cols _ h (by simp [Mat.rows])
  have hclen : (relLoop sq ((Vcol fm f).map sq) X.cols rels
      (X.data.map (fun row => dot (row.map sq)
        (((Vcol fm f).map sq).take X.cols)))).length = X.rows :=
    relLoop_length _ _ X.rows rels X.cols _ h (by simp [Mat.rows])
  rw [zipWith_getD _ _ _ i 0 0 0
      (by rw [List.length_zipWith, hr, hqlen]; omega)
      (by rw [hclen]; exact hi)]
  rw [zipWith_getD _ _ _ i 0 0 0 (by rw [hr]; exact hi)
      (by rw [hqlen]; exact hi)]
  rw [relLoop_getD _ _ X.rows rels X.cols _ i h (by simp [Mat.rows]) hi,
    relLoop_getD _ _ X.rows rels X.cols _ i h (by simp [Mat.rows]) hi]
  rw [getD_map_lt (fun row => dot row ((Vcol fm f).take X.cols))
      X.data i hi 0 []]
  rw [getD_map_lt (fun row => dot (row.map sq)
      (((Vcol fm f).map sq).take X.cols)) X.data i hi 0 []]
  unfold qVal cVal
  ring

theorem foldl_factorStep_length (fm : FM) (X : Mat)
    (rels : List RelationBlock)
    (h : ∀ rel ∈ rels, rel.original_to_block.length = X.rows) :
    ∀ (fs : List ℕ) (acc : List ℚ), acc.length = X.rows →
      (fs.foldl (factorStep fm X rels) acc).length = X.rows := by
  intro fs
  induction fs with
  | nil => intro acc ha; simpa
  | cons f fs ih =>
    intro acc ha
    rw [List.foldl_cons]
    exact ih _ (factorStep_length fm X rels acc f h ha)

theorem foldl_factorStep_getD (fm : FM) (X : Mat)
    (rels : List RelationBlock) (i : ℕ)
    (h : ∀ rel ∈ rels, rel.original_to_block.length = X.rows)
    (hi : i < X.rows) :
    ∀ (fs : List ℕ) (acc : List ℚ), acc.length = X.rows →
      (fs.foldl (factorStep fm X rels) acc).getD i 0 =
        acc.getD i 0 + (fs.map (fun f => sq (qVal fm X rels f i) * (1 / 2 : ℚ)
          - cVal fm X rels f i * (1 / 2 : ℚ))).sum := by
  intro fs
  induction fs with
  | nil => intro acc _; simp
  | cons f fs ih =>
    intro acc ha
    rw [List.foldl_cons, ih _ (factorStep_length fm X rels acc f h ha),
      factorStep_getD fm X rels acc f i h ha hi, List.map_cons,
      List.sum_cons]
    ring

theorem checkRels_ok_of (cs : ℕ) :
    ∀ (rels : List RelationBlock),
      (∀ rel ∈ rels, rel.original_to_block.length = cs) →
      checkRels cs rels =
        Except.ok ((rels.map RelationBlock.feature_size).sum) := by
  intro rels
  induction rels with
  | nil => intro _; rfl
  | cons rel rest ih =>
    intro h
    simp only [checkRels]
    rw [if_neg (by rw [h rel (by simp)]; simp)]
    rw [ih (fun r hr => h r (by simp [hr]))]
    rfl

theorem checkRels_ok_mapping (cs : ℕ) :
    ∀ (rels : List RelationBlock) (s : ℕ),
      checkRels cs rels = Except.ok s →
      ∀ rel ∈ rels, rel.original_to_block.length = cs := by
  intro rels
  induction rels with
  | nil => intro s _ rel hrel; simp at hrel
  | cons rel rest ih =>
    intro s hok r hr
    simp only [checkRels] at hok
    by_cases hc : cs ≠ rel.original_to_block.length
    · rw [if_pos hc] at hok; exact absurd hok (by simp)
    · rw [if_neg hc] at hok
      push_neg at hc
      rcases List.mem_cons.mp hr with h1 | h2
      · rw [h1, hc]
      · cases hrest : checkRels cs rest with
        | error e => rw [hrest] at hok; exact absurd hok (by simp [Except.map])
        | ok s' => exact ih s' hrest r h2

theorem checkRels_invalid_iff (cs : ℕ) :
    ∀ (rels : List RelationBlock),
      (∃ msg, checkRels cs rels =
        Except.error (FMError.invalidArgument msg)) ↔
      ∃ rel ∈ rels, rel.original_to_block.length ≠ cs := by
  intro rels
  induction rels with
  | nil =>
    constructor
    · rintro ⟨msg, hmsg⟩; exact absurd hmsg (by simp [checkRels])
    · rintro ⟨rel, hrel, _⟩; simp at hrel
  | cons rel rest ih =>
    constructor
    · rintro ⟨msg, hmsg⟩
      simp only [checkRels] at hmsg
      by_cases hc : cs ≠ rel.original_to_block.length
      · exact ⟨rel, by simp, fun he => hc he.symm⟩
      · rw [if_neg hc] at hmsg
        cases hrest : checkRels cs rest with
        | error e =>
          rw [hrest] at hmsg
          simp only [Except.map] at hmsg
          cases hmsg
          rcases ih.mp ⟨msg, hrest⟩ with ⟨r, hr, hne⟩
          exact ⟨r, by simp [hr], hne⟩
        | ok s' => rw [hrest] at hmsg; exact absurd hmsg (by simp [Except.map])
    · rintro ⟨r, hr, hne⟩
      rcases List.mem_cons.mp hr with h1 | h2
      · refine ⟨"Relation blocks have inconsistent mapper size with case_size", ?_⟩
        simp only [checkRels]
        rw [if_pos (by rw [← h1]; exact fun he => hne he.symm)]
      · by_cases hc : cs ≠ rel.original_to_block.length
        · refine ⟨"Relation blocks have inconsistent mapper size with case_size", ?_⟩
          simp only [checkRels]
          rw [if_pos hc]
        · rcases ih.mpr ⟨r, h2, hne⟩ with ⟨msg, hmsg⟩
          refine ⟨msg, ?_⟩
          simp only [checkRels]
          rw [if_neg hc, hmsg]
          rfl

/-- Master characterization: when the mapping lengths, the total feature
width, and the `initialized` flag are all consistent, `predict_score`
returns exactly the specification-side closed form `scoreSpec`. -/
theorem predict_score_eq_spec (fm : FM) (X : Mat)
    (rels : List RelationBlock)
    (hmap : ∀ rel ∈ rels, rel.original_to_block.length = X.rows)
    (hw : X.cols + (rels.map RelationBlock.feature_size).sum = fm.w.length)
    (hinit : fm.initialized = true) :
    predict_score fm X rels = Except.ok (scoreSpec fm X rels) := by
  unfold predict_score
  rw [checkRels_ok_of X.rows rels hmap]
  dsimp only
  rw [if_neg (by simp [hw])]
  rw [if_neg (by simp [hinit])]
  congr 1
  have hlin : (linInit fm X).length = X.rows := by simp [linInit, Mat.rows]
  have hacc : (relLoop id fm.w X.cols rels (linInit fm X)).length = X.rows :=
    relLoop_length _ _ X.rows rels X.cols _ hmap hlin
  apply List.ext_getElem
  · rw [foldl_factorStep_length fm X rels hmap _ _ hacc]
    simp [scoreSpec, Mat.rows]
  · intro i h1 h2
    have hi : i < X.rows := by
      rw [← foldl_factorStep_length fm X rels hmap (List.range fm.n_factors)
        _ hacc]
      exact h1
    rw [← List.getD_eq_getElem _ 0 h1, ← List.getD_eq_getElem _ 0 h2]
    rw [foldl_factorStep_getD fm X rels i hmap hi _ _ hacc]
    rw [relLoop_getD _ _ X.rows rels X.cols _ i hmap hlin hi]
    rw [show (linInit fm X).getD i 0 =
        fm.w0 + dot (X.data.getD i []) (fm.w.take X.cols) from
      getD_map_lt _ X.data i hi 0 []]
    unfold scoreSpec
    rw [getD_map_lt _ (List.range X.rows) i (by simpa using hi) 0 0]
    rw [List.getD_eq_getElem _ 0 (by simpa using hi), List.getElem_range]

/-- Helper: `predict_score` produces an `invalid_argument` error exactly
when a mapping length or the total feature width is inconsistent. -/
theorem predict_score_invalid_iff (fm : FM) (X : Mat)
    (rels : List RelationBlock) :
    (∃ msg, predict_score fm X rels =
      Except.error (FMError.invalidArgument msg)) ↔
      ((∃ rel ∈ rels, rel.original_to_block.length ≠ X.rows) ∨
        X.cols + (rels.map RelationBlock.feature_size).sum ≠
          fm.w.length) := by
  by_cases hall : ∀ rel ∈ rels, rel.original_to_block.length = X.rows
  · unfold predict_score
    rw [checkRels_ok_of X.rows rels hall]
    dsimp only
    by_cases hwc : X.cols + (rels.map RelationBlock.feature_size).sum ≠
        fm.w.length
    · rw [if_pos hwc]
      constructor
      · intro _; exact Or.inr hwc
      · intro _; exact ⟨"Total feature size mismatch.", rfl⟩
    · rw [if_neg hwc]
      constructor
      · rintro ⟨msg, hmsg⟩
        by_cases hin : fm.initialized = false
        · rw [if_pos hin] at hmsg; exact absurd hmsg (by simp)
        · rw [if_neg hin] at hmsg; exact absurd hmsg (by simp)
      · rintro (⟨rel, hrel, hne⟩ | hne)
        · exact absurd (hall rel hrel) hne
        · exact absurd hne hwc
  · push_neg at hall
    rcases hall with ⟨rel, hrel, hne⟩
    rcases (checkRels_invalid_iff X.rows rels).mpr ⟨rel, hrel, hne⟩ with
      ⟨msg, hmsg⟩
    constructor
    · intro _; exact Or.inl ⟨rel, hrel, hne⟩
    · intro _
      refine ⟨msg, ?_⟩
      unfold predict_score
      rw [hmsg]

/-- C3: `predict_score(X, relations)` raises `invalid_argument` if and
only if some relation block's mapping length differs from `X.rows()` or
`X.cols()` plus the sum of the blocks' feature widths differs from the
length of `w`.  The embedding returns `Except`, so on any error no score
vector is produced at all, and the model state is unchanged by
construction (`predict_score` is a pure, `const` function of the
model). -/
theorem predict_score_invalid_argument_iff (fm : FM) (X : Mat)
    (rels : List RelationBlock) :
    (∃ msg, predict_score fm X rels =
      Except.error (FMError.invalidArgument msg)) ↔
      ((∃ rel ∈ rels, rel.original_to_block.length ≠ X.rows) ∨
        X.cols + (rels.map RelationBlock.feature_size).sum ≠
          fm.w.length) :=
  predict_score_invalid_iff fm X rels

/-- C9: on an uninitialized model whose inputs also violate a consistency
precondition, the `invalid_argument` error is raised, not the
not-initialized error: both consistency checks run before the
initialization check. -/
theorem predict_score_checks_precede_init (fm : FM) (X : Mat)
    (rels : List RelationBlock) (hninit : fm.initialized = false)
    (hviol : (∃ rel ∈ rels, rel.original_to_block.length ≠ X.rows) ∨
      X.cols + (rels.map RelationBlock.feature_size).sum ≠ fm.w.length) :
    (∃ msg, predict_score fm X rels =
      Except.error (FMError.invalidArgument msg)) ∧
      predict_score fm X rels ≠ Except.error FMError.notInitialized := by
  rcases (predict_score_invalid_iff fm X rels).mpr hviol with ⟨msg, hmsg⟩
  refine ⟨⟨msg, hmsg⟩, ?_⟩
  rw [hmsg]
  simp

/-- C8: on success the score vector has exactly `X.rows()` entries.  The
remaining content of the claim holds by construction of the embedding:
`predict_score` is a pure function of the model and its arguments, so it
mutates nothing and two calls on equal states return equal results. -/
theorem predict_score_length (fm : FM) (X : Mat)
    (rels : List RelationBlock) (r : List ℚ)
    (h : predict_score fm X rels = Except.ok r) : r.length = X.rows := by
  unfold predict_score at h
  cases hcheck : checkRels X.rows rels with
  | error e => rw [hcheck] at h; exact absurd h (by simp)
  | ok fs =>
    rw [hcheck] at h
    dsimp only at h
    by_cases hwc : X.cols + fs ≠ fm.w.length
    · rw [if_pos hwc] at h; exact absurd h (by simp)
    · rw [if_neg hwc] at h
      by_cases hin : fm.initialized = false
      · rw [if_pos hin] at h; exact absurd h (by simp)
      · rw [if_neg hin] at h
        have hmap := checkRels_ok_mapping X.rows rels fs hcheck
        rw [← Except.ok.inj h]
        have hlin : (linInit fm X).length = X.rows := by
          simp [linInit, Mat.rows]
        exact foldl_factorStep_length fm X rels hmap _ _
          (relLoop_length _ _ X.rows rels X.cols _ hmap hlin)

/-- C1: on an initialized model whose weight length matches the base
matrix width, the relation-block engine called with an empty relation
list coincides with the block-free quadratic-form engine
`predict_score_noblock` (bias + linear term + half of
`(Xv_f)^2 - X^2 v_f^2` per factor), exactly over the rationals. -/
theorem predict_score_noblock_refinement (fm : FM) (X : Mat)
    (hinit : fm.initialized = true) (hcols : X.cols = fm.w.length)
    (hX : X.wf) (hV : ∀ vr ∈ fm.V, vr.length = fm.n_factors) :
    predict_score fm X [] = predict_score_noblock fm X := by
  rw [predict_score_eq_spec fm X [] (by simp) (by simpa using hcols) hinit]
  unfold predict_score_noblock
  rw [if_neg (by simp [hinit])]
  congr 1
  apply List.ext_getElem
  · simp [scoreSpec, Mat.rows]
  · intro i h1 h2
    have hi : i < X.data.length := by simpa using h2
    unfold scoreSpec
    rw [List.getElem_map, List.getElem_map, List.getElem_range]
    have hgd : X.data.getD i [] = X.data[i] := List.getD_eq_getElem X.data [] hi
    have hrlen : (X.data[i]).length = X.cols := hX _ (List.getElem_mem hi)
    have hq : ∀ f, qVal fm X [] f i = dot X.data[i] (Vcol fm f) := by
      intro f
      unfold qVal
      rw [show relContrib id (Vcol fm f) X.cols [] i = 0 from rfl]
      rw [hgd, dot_take _ _ _ (le_of_eq hrlen), add_zero]
    have hc : ∀ f, cVal fm X [] f i =
        dot ((X.data[i]).map sq) ((Vcol fm f).map sq) := by
      intro f
      unfold cVal
      rw [show relContrib sq ((Vcol fm f).map sq) X.cols [] i = 0 from rfl]
      rw [hgd, dot_take _ _ _
        (by rw [List.length_map]; exact le_of_eq hrlen), add_zero]
    have hlin : dot (X.data.getD i []) (fm.w.take X.cols) =
        dot X.data[i] fm.w := by
      rw [hgd]; exact dot_take _ _ _ (le_of_eq hrlen)
    have hrel0 : relContrib id fm.w X.cols [] i = 0 := rfl
    simp only [hq, hc, hrel0, hlin, add_zero]
    rw [sum_map_sub_distrib, List.sum_map_mul_right, List.sum_map_mul_right]
    have hcolmap : ∀ f, (Vcol fm f).map sq =
        (fm.V.map (List.map sq)).map (fun vr => vr.getD f 0) := by
      intro f
      unfold Vcol
      rw [List.map_map, List.map_map]
      apply List.map_congr_left
      intro vr _
      exact (getD_map_zero sq (by simp [sq]) vr f).symm
    have hxchg : ((List.range fm.n_factors).map
        (fun f => dot ((X.data[i]).map sq) ((Vcol fm f).map sq))).sum =
        dot ((X.data[i]).map sq) (fm.V.map (fun vr => (vr.map sq).sum)) := by
      simp only [hcolmap]
      rw [dot_col_sum _ _ fm.n_factors (by
        intro vr hvr
        rcases List.mem_map.mp hvr with ⟨v, hv, rfl⟩
        rw [List.length_map]
        exact hV v hv)]
      rw [List.map_map]
      rfl
    have hhalf : fm.V.map (fun vr => (1 / 2 : ℚ) * (vr.map sq).sum) =
        (fm.V.map (fun vr => (vr.map sq).sum)).map
          (fun x => (1 / 2 : ℚ) * x) := by
      rw [List.map_map]
      rfl
    have hD : dot ((X.data[i]).map sq)
        (fm.V.map (fun vr => (1 / 2 : ℚ) * (vr.map sq).sum)) =
        (1 / 2 : ℚ) * ((List.range fm.n_factors).map
          (fun f => dot ((X.data[i]).map sq) ((Vcol fm f).map sq))).sum := by
      rw [hhalf, dot_const_mul, hxchg]
    rw [hD]
    ring

/-- Witness for C1 at a concrete initialized one-feature model. -/
theorem predict_score_noblock_refinement_witness :
    (exFM.initialized = true ∧ exX.cols = exFM.w.length ∧ exX.wf ∧
      ∀ vr ∈ exFM.V, vr.length = exFM.n_factors) ∧
      predict_score exFM exX [] = predict_score_noblock exFM exX :=
  ⟨⟨rfl, rfl, by decide, by decide⟩,
    predict_score_noblock_refinement exFM exX rfl rfl (by decide)
      (by decide)⟩

/-- C10: `predict_score` partitions `w` and the rows of `V` positionally:
on success the score of case `i` is the bias, plus the base linear term
on `w.take X.cols`, plus — per `relContrib` — each block's linear
contribution on the next `feature_size` consecutive entries of `w` in
list order, plus per latent factor `0.5 qVal^2 - 0.5 cVal`, where `qVal`
and `cVal` read `V.col(f)` through exactly the same positional
partition (`take X.cols`, then consecutive `feature_size` segments). -/
theorem predict_score_partition (fm : FM) (X : Mat)
    (rels : List RelationBlock)
    (hmap : ∀ rel ∈ rels, rel.original_to_block.length = X.rows)
    (hw : X.cols + (rels.map RelationBlock.feature_size).sum = fm.w.length)
    (hinit : fm.initialized = true) :
    predict_score fm X rels = Except.ok (scoreSpec fm X rels) :=
  predict_score_eq_spec fm X rels hmap hw hinit

/-- Witness for C10 at a concrete model with one relation block. -/
theorem predict_score_partition_witness :
    ((∀ rel ∈ [exB], rel.original_to_block.length = exX.rows) ∧
      exX.cols + ([exB].map RelationBlock.feature_size).sum =
        exFM2.w.length ∧ exFM2.initialized = true) ∧
      predict_score exFM2 exX [exB] =
        Except.ok (scoreSpec exFM2 exX [exB]) :=
  ⟨⟨by decide, by decide, rfl⟩,
    predict_score_partition exFM2 exX [exB] (by decide) (by decide) rfl⟩

/-- Witness for C8 at a concrete call returning one score. -/
theorem predict_score_length_witness :
    predict_score exFM exX [] = Except.ok [2] ∧
      ([(2 : ℚ)] : List ℚ).length = exX.rows :=
  ⟨by norm_num [predict_score, checkRels, Mat.rows, exFM, exX, linInit,
      relLoop, factorStep, scatterAdd, blockScores, dot, sq, Vcol,
      List.range_succ],
    predict_score_length exFM exX [] [2]
      (by norm_num [predict_score, checkRels, Mat.rows, exFM, exX, linInit,
        relLoop, factorStep, scatterAdd, blockScores, dot, sq, Vcol,
        List.range_succ])⟩

/-- Witness for C9: an uninitialized model with a feature-width mismatch
still reports `invalid_argument`. -/
theorem predict_score_checks_precede_init_witness :
    (exFM0.initialized = false ∧
      ((∃ rel ∈ ([] : List RelationBlock),
          rel.original_to_block.length ≠ exXw.rows) ∨
        exXw.cols + (([] : List RelationBlock).map
          RelationBlock.feature_size).sum ≠ exFM0.w.length)) ∧
      ((∃ msg, predict_score exFM0 exXw [] =
        Except.error (FMError.invalidArgument msg)) ∧
        predict_score exFM0 exXw [] ≠
          Except.error FMError.notInitialized) :=
  ⟨⟨rfl, Or.inr (by decide)⟩,
    predict_score_checks_precede_init exFM0 exXw [] rfl
      (Or.inr (by decide))⟩

/-- C2: for a relation block whose mapping is the identity
(`original_to_block = [0, ..., N)`, `B = N`), scoring with the block
equals scoring the horizontally concatenated matrix with no blocks and
the unchanged weight vector: deduplication never changes the result. -/
theorem predict_score_identity_block (fm : FM) (X : Mat)
    (b : RelationBlock) (hinit : fm.initialized = true)
    (hbmap : b.original_to_block = List.range X.rows)
    (hbN : b.X.rows = X.rows) (hfs : b.feature_size = b.X.cols)
    (hXwf : X.wf) (hBwf : b.X.wf)
    (hw : X.cols + b.feature_size = fm.w.length) :
    predict_score fm X [b] = predict_score fm (X.hcat b.X) [] := by
  have hmap1 : ∀ rel ∈ [b], rel.original_to_block.length = X.rows := by
    intro rel hrel
    rw [List.mem_singleton] at hrel
    subst hrel
    rw [hbmap]
    simp
  have hw1 : X.cols + ([b].map RelationBlock.feature_size).sum =
      fm.w.length := by simpa using hw
  have hcols' : (X.hcat b.X).cols = X.cols + b.X.cols := rfl
  have hbNlen : b.X.data.length = X.data.length := by
    have := hbN
    simpa [Mat.rows] using this
  have hrows' : (X.hcat b.X).rows = X.rows := by
    simp [Mat.hcat, Mat.rows, hbNlen]
  have hw2 : (X.hcat b.X).cols + (([] : List RelationBlock).map
      RelationBlock.feature_size).sum = fm.w.length := by
    simpa [hcols', ← hfs] using hw
  rw [predict_score_eq_spec fm X [b] hmap1 hw1 hinit,
    predict_score_eq_spec fm (X.hcat b.X) [] (by simp) hw2 hinit]
  congr 1
  unfold scoreSpec
  rw [hrows']
  apply List.ext_getElem
  · simp
  · intro i h1 h2
    rw [List.getElem_map, List.getElem_map]
    simp only [List.getElem_range]
    have hi : i < X.rows := by simpa using h1
    have hiX : i < X.data.length := hi
    have hiB : i < b.X.data.length := by rw [hbNlen]; exact hiX
    have hgX : X.data.getD i [] = X.data[i] :=
      List.getD_eq_getElem X.data [] hiX
    have hgB : b.X.data.getD i [] = b.X.data[i] :=
      List.getD_eq_getElem b.X.data [] hiB
    have hrowlen : (X.data[i]).length = X.cols := hXwf _ (List.getElem_mem hiX)
    have hbrowlen : (b.X.data[i]).length = b.X.cols :=
      hBwf _ (List.getElem_mem hiB)
    have hcatget : (X.hcat b.X).data.getD i [] = X.data[i] ++ b.X.data[i] := by
      show (List.zipWith (fun a c => a ++ c) X.data b.X.data).getD i [] = _
      rw [zipWith_getD _ X.data b.X.data i [] [] [] hiX hiB, hgX, hgB]
    have hmapi : b.original_to_block.getD i 0 = i := by
      rw [hbmap, List.getD_eq_getElem _ 0 (by simpa using hi),
        List.getElem_range]
    have hbs : ∀ (tf : ℚ → ℚ) (w : List ℚ),
        relContrib tf w X.cols [b] i =
          dot ((b.X.data[i]).map tf)
            ((w.drop X.cols).take b.feature_size) := by
      intro tf w
      show (blockScores tf w X.cols b).getD
          (b.original_to_block.getD i 0) 0 +
          relContrib tf w (X.cols + b.feature_size) [] i = _
      rw [hmapi, show relContrib tf w (X.cols + b.feature_size) [] i = 0
        from rfl, add_zero]
      unfold blockScores
      rw [getD_map_lt _ b.X.data i hiB 0 [], hgB]
    have hsplitg : ∀ (a c v : List ℚ), a.length = X.cols →
        c.length = b.feature_size →
        dot (a ++ c) v =
          dot a (v.take X.cols) +
            dot c ((v.drop X.cols).take b.feature_size) := by
      intro a c v ha hc
      rw [dot_append, ha]
      congr 1
      exact (dot_take c (v.drop X.cols) b.feature_size (le_of_eq hc)).symm
    have heq2 : ∀ f, qVal fm (X.hcat b.X) [] f i = qVal fm X [b] f i := by
      intro f
      unfold qVal
      rw [show relContrib id (Vcol fm f) (X.hcat b.X).cols [] i = 0
        from rfl, add_zero]
      rw [hcatget, hcols']
      rw [dot_take _ _ _ (le_of_eq (by
        rw [List.length_append, hrowlen, hbrowlen]))]
      rw [hsplitg _ _ _ hrowlen (by rw [hbrowlen, hfs])]
      rw [hgX, hbs id (Vcol fm f), List.map_id]
    have heq3 : ∀ f, cVal fm (X.hcat b.X) [] f i = cVal fm X [b] f i := by
      intro f
      unfold cVal
      rw [show relContrib sq ((Vcol fm f).map sq) (X.hcat b.X).cols [] i = 0
        from rfl, add_zero]
      rw [hcatget, hcols', List.map_append]
      rw [dot_take _ _ _ (le_of_eq (by
        rw [List.length_append, List.length_map, List.length_map,
          hrowlen, hbrowlen]))]
      rw [hsplitg _ _ _ (by rw [List.length_map, hrowlen])
        (by rw [List.length_map, hbrowlen, hfs])]
      rw [hgX, hbs sq ((Vcol fm f).map sq)]
    have heq1 : dot ((X.hcat b.X).data.getD i [])
        (fm.w.take (X.hcat b.X).cols) =
        dot (X.data.getD i []) (fm.w.take X.cols) +
          relContrib id fm.w X.cols [b] i := by
      rw [hcatget, hcols']
      rw [dot_take _ _ _ (le_of_eq (by
        rw [List.length_append, hrowlen, hbrowlen]))]
      rw [hsplitg _ _ _ hrowlen (by rw [hbrowlen, hfs])]
      rw [hgX, hbs id fm.w, List.map_id]
    simp only [heq2, heq3]
    rw [show relContrib id fm.w (X.hcat b.X).cols [] i = 0 from rfl,
      add_zero, heq1]
    ring

/-- Witness for C2 at a concrete one-case model with an identity block. -/
theorem predict_score_identity_block_witness :
    (exFM2.initialized = true ∧
      exB.original_to_block = List.range exX.rows ∧
      exB.X.rows = exX.rows ∧ exB.feature_size = exB.X.cols ∧
      exX.wf ∧ exB.X.wf ∧
      exX.cols + exB.feature_size = exFM2.w.length) ∧
      predict_score exFM2 exX [exB] =
        predict_score exFM2 (exX.hcat exB.X) [] :=
  ⟨⟨rfl, by decide, rfl, rfl, by decide, by decide, rfl⟩,
    predict_score_identity_block exFM2 exX exB rfl (by decide) rfl rfl
      (by decide) (by decide) rfl⟩

/-- C7: after `initialize_weight(P, init_std, gen)` the weight vector has
length `P`, the factor matrix is `P × n_factors`, the model is marked
initialized, and every written scalar (each entry of `V` and `w`, and the
bias) is `init_std` times one standard-normal deviate of the stream, each
at a distinct stream position (the last three conjuncts), so the draws
are independent.  The generator is advanced past all consumed
positions. -/
theorem initialize_weight_spec (fm : FM) (P : ℕ) (σ : ℚ) (g : RNG ℚ) :
    ((initialize_weight fm P σ g).1.w.length = P) ∧
    ((initialize_weight fm P σ g).1.V.length = P) ∧
    (∀ vr ∈ (initialize_weight fm P σ g).1.V,
      vr.length = fm.n_factors) ∧
    ((initialize_weight fm P σ g).1.initialized = true) ∧
    (∀ i j, i < P → j < fm.n_factors →
      ((initialize_weight fm P σ g).1.V.getD i []).getD j 0 =
        g.stream (g.pos + j * P + i) * σ) ∧
    (∀ i, i < P → (initialize_weight fm P σ g).1.w.getD i 0 =
      g.stream (g.pos + P * fm.n_factors + i) * σ) ∧
    ((initialize_weight fm P σ g).1.w0 =
      g.stream (g.pos + P * fm.n_factors + P) * σ) ∧
    ((initialize_weight fm P σ g).2.pos =
      g.pos + P * fm.n_factors + P + 1) ∧
    (∀ i j i' j', i < P → j < fm.n_factors → i' < P → j' < fm.n_factors →
      g.pos + j * P + i = g.pos + j' * P + i' → i = i' ∧ j = j') ∧
    (∀ i j i', i < P → j < fm.n_factors →
      g.pos + j * P + i ≠ g.pos + P * fm.n_factors + i') := by
  refine ⟨?_, ?_, ?_, rfl, ?_, ?_, rfl, rfl, ?_, ?_⟩
  · simp [initialize_weight]
  · simp [initialize_weight]
  · intro vr hvr
    simp only [initialize_weight, List.mem_map, List.mem_range] at hvr
    rcases hvr with ⟨i, _, rfl⟩
    simp
  · intro i j hi hj
    simp only [initialize_weight]
    rw [getD_map_lt (fun i => (List.range fm.n_factors).map
        (fun j => g.stream (g.pos + j * P + i) * σ))
        (List.range P) i (by simpa using hi) [] 0]
    rw [show (List.range P).getD i 0 = i from by
      rw [List.getD_eq_getElem _ 0 (by simpa using hi)]; simp]
    rw [getD_map_lt (fun j => g.stream (g.pos + j * P + i) * σ)
        (List.range fm.n_factors) j (by simpa using hj) 0 0]
    rw [show (List.range fm.n_factors).getD j 0 = j from by
      rw [List.getD_eq_getElem _ 0 (by simpa using hj)]; simp]
  · intro i hi
    simp only [initialize_weight]
    rw [getD_map_lt (fun i => g.stream (g.pos + P * fm.n_factors + i) * σ)
        (List.range P) i (by simpa using hi) 0 0]
    rw [show (List.range P).getD i 0 = i from by
      rw [List.getD_eq_getElem _ 0 (by simpa using hi)]; simp]
  · intro i j i' j' hi hj hi' hj' heq
    have h1 : j * P + i = j' * P + i' := by omega
    have hP : 0 < P := by omega
    have hii : i = i' := by
      have e1 : (j * P + i) % P = i := by
        rw [mul_comm, Nat.mul_add_mod]; exact Nat.mod_eq_of_lt hi
      have e2 : (j' * P + i') % P = i' := by
        rw [mul_comm, Nat.mul_add_mod]; exact Nat.mod_eq_of_lt hi'
      rw [← e1, ← e2, h1]
    have hjj : j = j' := by
      have e1 : (j * P + i) / P = j := by
        rw [mul_comm, Nat.mul_add_div hP, Nat.div_eq_of_lt hi, add_zero]
      have e2 : (j' * P + i') / P = j' := by
        rw [mul_comm, Nat.mul_add_div hP, Nat.div_eq_of_lt hi', add_zero]
      rw [← e1, ← e2, h1]
    exact ⟨hii, hjj⟩
  · intro i j i' hi hj
    have hlt : j * P + i < P * fm.n_factors := by
      have h2 : (j + 1) * P ≤ fm.n_factors * P := Nat.mul_le_mul_right P hj
      calc j * P + i < j * P + P := by omega
        _ = (j + 1) * P := by ring
        _ ≤ fm.n_factors * P := h2
        _ = P * fm.n_factors := by ring
    omega

/-- Witness for C7 at a concrete model, feature count and stream. -/
theorem initialize_weight_spec_witness :
    (initialize_weight exFM 2 1 exG).1.w.length = 2 :=
  (initialize_weight_spec exFM 2 1 exG).1

/-! Truncated-normal sampler lemmas. -/

theorem rejectLoop_succ (fuel : ℕ) (g : RNG ℝ) (mu : ℝ) :
    rejectLoop (fuel + 1) g mu =
      if mu < g.stream g.pos then
        some (g.stream g.pos, (⟨g.stream, g.pos + 1⟩ : RNG ℝ))
      else rejectLoop fuel ⟨g.stream, g.pos + 1⟩ mu := rfl

theorem expLoop_succ (fuel : ℕ) (g : RNG ℝ) (mu a : ℝ) :
    expLoop (fuel + 1) g mu a =
      if g.stream (g.pos + 1) <
          Real.exp (-(-Real.log (g.stream g.pos) / a + mu - a) *
            (-Real.log (g.stream g.pos) / a + mu - a) / 2) then
        some (-Real.log (g.stream g.pos) / a + mu,
          (⟨g.stream, g.pos + 2⟩ : RNG ℝ))
      else expLoop fuel ⟨g.stream, g.pos + 2⟩ mu a := rfl

theorem rejectLoop_gt : ∀ (fuel : ℕ) (g : RNG ℝ) (mu r : ℝ) (g' : RNG ℝ),
    rejectLoop fuel g mu = some (r, g') → mu < r := by
  intro fuel
  induction fuel with
  | zero => intro g mu r g' h; exact absurd h (by simp [rejectLoop])
  | succ n ih =>
    intro g mu r g' h
    rw [rejectLoop_succ] at h
    by_cases hz : mu < g.stream g.pos
    · rw [if_pos hz] at h
      simp only [Option.some.injEq, Prod.mk.injEq] at h
      rw [← h.1]
      exact hz
    · rw [if_neg hz] at h
      exact ih _ mu r g' h

theorem alpha_star_pos (mu : ℝ) (h : 0 ≤ mu) : 0 < alpha_star mu := by
  unfold alpha_star
  have h4 : (0 : ℝ) < Real.sqrt (mu * mu + 4) :=
    Real.sqrt_pos.mpr (by positivity)
  linarith

theorem expLoop_gt : ∀ (fuel : ℕ) (g : RNG ℝ) (mu a r : ℝ) (g' : RNG ℝ),
    0 < a → (∀ n, g.stream n ∈ Set.Ioo (0 : ℝ) 1) →
    expLoop fuel g mu a = some (r, g') → mu < r := by
  intro fuel
  induction fuel with
  | zero => intro g mu a r g' _ _ h; exact absurd h (by simp [expLoop])
  | succ n ih =>
    intro g mu a r g' ha hgu h
    rw [expLoop_succ] at h
    by_cases hacc : g.stream (g.pos + 1) <
        Real.exp (-(-Real.log (g.stream g.pos) / a + mu - a) *
          (-Real.log (g.stream g.pos) / a + mu - a) / 2)
    · rw [if_pos hacc] at h
      simp only [Option.some.injEq, Prod.mk.injEq] at h
      rw [← h.1]
      have hu := hgu g.pos
      have hlog : Real.log (g.stream g.pos) < 0 := Real.log_neg hu.1 hu.2
      have hq : 0 < -Real.log (g.stream g.pos) / a :=
        div_pos (by linarith) ha
      linarith
    · rw [if_neg hacc] at h
      exact ih ⟨g.stream, g.pos + 2⟩ mu a r g' ha (fun n => hgu n) h

/-- C5: every value returned by `sample_truncated_normal_left` strictly
exceeds the threshold, in both branches.  The stream hypothesis states
that the underlying draws lie in the open unit interval, as the uniform
deviates of `uniform_real_distribution` do except for the measure-zero
draw `U = 0` (which in floating point yields `z = +inf > t` but has no
finite real counterpart). -/
theorem sample_left_gt_threshold (fuel : ℕ) (g : RNG ℝ) (t r : ℝ)
    (g' : RNG ℝ) (hu : ∀ n, g.stream n ∈ Set.Ioo (0 : ℝ) 1)
    (h : sample_truncated_normal_left fuel g t = some (r, g')) : t < r := by
  unfold sample_truncated_normal_left at h
  by_cases ht : t < 0
  · rw [if_pos ht] at h
    exact rejectLoop_gt fuel g t r g' h
  · rw [if_neg ht] at h
    exact expLoop_gt fuel g t _ r g'
      (alpha_star_pos t (le_of_not_lt ht)) hu h

/-- Witness for C5 at threshold `-1` and the constant stream `1/2`. -/
theorem sample_left_gt_threshold_witness :
    (∀ n, exGR.stream n ∈ Set.Ioo (0 : ℝ) 1) ∧ ((-1 : ℝ) < 1 / 2) := by
  have hu : ∀ n, exGR.stream n ∈ Set.Ioo (0 : ℝ) 1 := by
    intro n
    constructor <;> norm_num [exGR]
  refine ⟨hu, ?_⟩
  have heval : sample_truncated_normal_left 1 exGR (-1) =
      some (1 / 2, (⟨exGR.stream, 1⟩ : RNG ℝ)) := by
    unfold sample_truncated_normal_left
    rw [if_pos (by norm_num : ((-1 : ℝ) < 0))]
    rw [show (1 : ℕ) = 0 + 1 from rfl, rejectLoop_succ]
    rw [if_pos (by norm_num [exGR] : ((-1 : ℝ) < exGR.stream exGR.pos))]
    rfl
  exact sample_left_gt_threshold 1 exGR (-1) (1 / 2) ⟨exGR.stream, 1⟩ hu heval

/-- C6: `sample_truncated_normal_right(gen, mu_plus)` is the negation of
`sample_truncated_normal_left(gen, -mu_plus)` run on the same generator,
consuming exactly the same deviates (the final generator state is passed
through unchanged).  This is definitional in the source, which returns
`-sample_truncated_normal_left(gen, -mu_plus)`. -/
theorem sample_right_eq_neg_left (fuel : ℕ) (g : RNG ℝ) (mu_plus : ℝ) :
    sample_truncated_normal_right fuel g mu_plus =
      Option.map (fun p : ℝ × RNG ℝ => (-p.1, p.2))
        (sample_truncated_normal_left fuel g (-mu_plus)) := rfl

/-- Counterexample for C4 as stated: at the boundary threshold `0`
(which satisfies `mu_minus ≤ 0`), the sampler does not perform plain
rejection — the code's branch condition is the strict `mu_minus < 0`, so
threshold `0` runs the exponential envelope.  On the stream
`exp(-1), 1/2, ...` the envelope accepts `z = 1` after two draws while
plain rejection would return `exp(-1)` after one draw. -/
theorem sample_left_zero_uses_envelope :
    ((0 : ℝ) ≤ 0) ∧
      sample_truncated_normal_left 1 cexGen 0 ≠ rejectLoop 1 cexGen 0 := by
  refine ⟨le_refl 0, ?_⟩
  have hs0 : cexGen.stream cexGen.pos = Real.exp (-1) := by
    simp [cexGen]
  have hs1 : cexGen.stream (cexGen.pos + 1) = 1 / 2 := by
    norm_num [cexGen]
  have ha : alpha_star 0 = 1 := by
    unfold alpha_star
    rw [show ((0 : ℝ) * 0 + 4) = 2 ^ 2 by norm_num,
      Real.sqrt_sq (by norm_num : (0 : ℝ) ≤ 2)]
    norm_num
  have hL : sample_truncated_normal_left 1 cexGen 0 =
      some (1, (⟨cexGen.stream, 2⟩ : RNG ℝ)) := by
    unfold sample_truncated_normal_left
    rw [if_neg (by norm_num : ¬((0 : ℝ) < 0))]
    rw [show (1 : ℕ) = 0 + 1 from rfl, expLoop_succ, hs0, hs1, ha,
      Real.log_exp]
    have hcond : (1 / 2 : ℝ) <
        Real.exp (-(-(-1) / 1 + 0 - 1) * (-(-1) / 1 + 0 - 1) / 2) := by
      norm_num
    rw [if_pos hcond]
    norm_num [cexGen]
  have hR : rejectLoop 1 cexGen 0 =
      some (Real.exp (-1), (⟨cexGen.stream, 1⟩ : RNG ℝ)) := by
    rw [show (1 : ℕ) = 0 + 1 from rfl, rejectLoop_succ, hs0]
    rw [if_pos (Real.exp_pos (-1))]
    norm_num [cexGen]
  rw [hL, hR]
  intro hcontra
  simp only [Option.some.injEq, Prod.mk.injEq, RNG.mk.injEq] at hcontra
  omega

/-- C4 (amended): for every strictly negative standardized threshold the
sampler performs plain rejection — it returns the first standard-normal
deviate strictly exceeding the threshold; at threshold `0` the
exponential-envelope branch is used instead. -/
theorem sample_left_neg_plain_rejection (fuel : ℕ) (g : RNG ℝ) (mu : ℝ)
    (h : mu < 0) :
    sample_truncated_normal_left fuel g mu = rejectLoop fuel g mu := by
  unfold sample_truncated_normal_left
  rw [if_pos h]

/-- Witness for the amended C4 at threshold `-1`. -/
theorem sample_left_neg_plain_rejection_witness :
    ((-1 : ℝ) < 0) ∧ sample_truncated_normal_left 1 exGR (-1) =
      rejectLoop 1 exGR (-1) :=
  ⟨by norm_num, sample_left_neg_plain_rejection 1 exGR (-1) (by norm_num)⟩

end myFM
